import Mathlib

/-
Verification development for the NeuroView EEG viewer core.

The embedded code comes from:
  * src/utils/dsp.ts        — FFT, Hann window, spectrogram engine, heatmap color
  * src/components/EEGCanvas.tsx — time-axis tick selection and labeling
  * ViewerStep component    — trial windowing, navigation, annotations,
                              debounced gain/duration commits
  * Spectrogram component   — draw effect reading the magnitude grid

Conventions of the shallow embedding:
  * JavaScript numbers are modelled as elements of a linear ordered field
    (instantiated at ℚ for executable witnesses); the transcendental
    primitives Math.cos / Math.sin / Math.sqrt / Math.log10 / Math.PI are
    platform built-ins, so they are abstracted into a record of operations
    `DSPOps` — every structural theorem below holds for any interpretation
    of these primitives.
  * JS arrays become `List`; out-of-range reads (which yield `undefined`
    in JS) are modelled with `List.getD` where the source guarantees the
    index is in range, and with `·[·]?` (`Option`) where an out-of-range
    read would fault.
  * The running min/max trackers of the spectrogram engine start from
    JavaScript's `-Infinity` / `Infinity`; these are modelled faithfully
    with `WithBot` / `WithTop`.
-/

namespace NeuroView

/-! ## Heatmap color mapping (src/utils/dsp.ts, getHeatmapColor)

The source returns the string `rgb(r,g,b)`; we model the triple of the three
integer components (produced by `Math.floor`, hence `Int.floor` on ℚ).
The literals 0.25 / 0.5 / 0.75 are written 1/4, 1/2, 3/4. -/

def getHeatmapColor (value : ℚ) : ℤ × ℤ × ℤ :=
  let clamped := max 0 (min 1 value)
  if clamped < 1/4 then
    -- Black to Blue/Purple
    (0, 0, ⌊clamped * 4 * 255⌋)
  else if clamped < 1/2 then
    -- Blue to Red
    (⌊(clamped - 1/4) * 4 * 255⌋, 0, 255 - ⌊(clamped - 1/4) * 4 * 200⌋)
  else if clamped < 3/4 then
    -- Red to Yellow
    (255, ⌊(clamped - 1/2) * 4 * 255⌋, 0)
  else
    -- Yellow to White
    (255, 255, ⌊(clamped - 3/4) * 4 * 255⌋)

/-! ## Trial windowing and navigation (ViewerStep component)

`pointsPerTrial = config.samplingRate * config.trialDurationSec`,
`totalTrials = Math.ceil(data.length / pointsPerTrial)`, and the paged /
scroll slice `data.slice(startIndex, endIndex)`.  The JS trial counter is a
plain number that `handleNext` can drive to `-1` when `totalTrials = 0`,
so the counter is modelled as `ℤ` while sizes stay in `ℕ`. -/

def pointsPerTrial (samplingRate trialDurationSec : ℕ) : ℕ :=
  samplingRate * trialDurationSec

def totalTrials (dataLen ppt : ℕ) : ℕ :=
  ⌈(dataLen : ℚ) / (ppt : ℚ)⌉₊

def currentTrialDataSlice {ρ : Type} (data : List ρ) (isScrollMode : Bool)
    (currentTrial ppt : ℕ) : List ρ :=
  if isScrollMode then data
  else
    let startIndex := currentTrial * ppt
    let endIndex := min (startIndex + ppt) data.length
    (data.drop startIndex).take (endIndex - startIndex)

def handlePrev (c : ℤ) : ℤ := max 0 (c - 1)

def handleNext (tTrials : ℕ) (c : ℤ) : ℤ := min ((tTrials : ℤ) - 1) (c + 1)

/-! ## Annotations (ViewerStep, addAnnotation)

The `Annotation` interface of src/types.ts; the `id` field is
`Date.now().toString()` in the source, modelled by a `now : ℕ` parameter. -/

inductive AnnType : Type
  | normal
  | artifact
  | seizure
  | other
deriving DecidableEq

structure Annot where
  id : ℕ
  trialIndex : ℕ
  timestamp : ℕ
  note : String
  type : AnnType
deriving DecidableEq

/-- JavaScript `String.prototype.trim`: strip whitespace from both ends.
Implemented over the character list so that it evaluates by `decide`. -/
def jsTrim (s : String) : String :=
  String.mk (((s.data.dropWhile Char.isWhitespace).reverse.dropWhile
    Char.isWhitespace).reverse)

def addAnnot (annots : List Annot) (currentTrial trialDurationSec now : ℕ)
    (newNote : String) (selectedType : AnnType) : List Annot :=
  -- if (!newNote.trim()) return;  — an all-whitespace note trims to the
  -- empty string, which is falsy in JS
  if jsTrim newNote = "" then annots
  else
    annots ++ [{ id := now, trialIndex := currentTrial,
                 timestamp := currentTrial * trialDurationSec,
                 note := newNote, type := selectedType }]

/-! ## Debounced gain / duration commit effects (ViewerStep)

The settle-interval effects run `parseFloat` (gain) resp. `parseInt`
(duration) on the debounced text.  A JavaScript parse returns a double:
`NaN` on failure, a finite value, or `±Infinity` (`parseFloat("1e999")`
overflows to `Infinity`, as does `parseInt` of a few hundred digits), so
the outcome is modelled by an explicit sum type — collapsing it to an
`Option` would hide the infinite case the source's guards let through.
Each effect returns the committed value together with a flag recording
whether the change was propagated (`setYScale` / `onGainChange` resp.
`onConfigChange` was invoked). -/

/-- Outcome of `parseFloat`: `NaN`, `±Infinity`, or a finite double. -/
inductive JSNum : Type
  | nan
  | posInf
  | negInf
  | fin (q : ℚ)
deriving DecidableEq

/-- JavaScript `isNaN` on a `parseFloat` outcome. -/
def JSNum.isNaN : JSNum → Bool
  | JSNum.nan => true
  | _ => false

/-- Finiteness of a `parseFloat` outcome (`Number.isFinite`). -/
def JSNum.isFinite : JSNum → Bool
  | JSNum.fin _ => true
  | _ => false

/-- Outcome of `parseInt`: `NaN`, an integer, or `±Infinity` when the
digit string exceeds the double range. -/
inductive JSIntNum : Type
  | nan
  | posInf
  | negInf
  | fin (z : ℤ)
deriving DecidableEq

/-- JavaScript `isNaN` on a `parseInt` outcome. -/
def JSIntNum.isNaN : JSIntNum → Bool
  | JSIntNum.nan => true
  | _ => false

/-- Finiteness of a `parseInt` outcome. -/
def JSIntNum.isFinite : JSIntNum → Bool
  | JSIntNum.fin _ => true
  | _ => false

/-- The JavaScript comparison `val > 0` on a `parseInt` outcome
(`NaN > 0` is false, `Infinity > 0` is true). -/
def JSIntNum.gtZero : JSIntNum → Bool
  | JSIntNum.nan => false
  | JSIntNum.posInf => true
  | JSIntNum.negInf => false
  | JSIntNum.fin z => decide (0 < z)

/-- The gain commit effect:
`if (!isNaN(val) && val !== yScale) { setYScale(val); onGainChange?.(val) }`.
For non-`NaN` doubles the strict comparison `!==` coincides with
structural inequality on `JSNum`, and a `NaN` parse short-circuits the
conjunction, as in the source. -/
def gainSettleEffect (val : JSNum) (yScale : JSNum) : JSNum × Bool :=
  if JSNum.isNaN val = false ∧ val ≠ yScale then (val, true)
  else (yScale, false)

/-- The duration commit effect:
`if (!isNaN(val) && val > 0 && val !== config.trialDurationSec)
onConfigChange({...config, trialDurationSec: val})`. -/
def durationSettleEffect (val : JSIntNum) (trialDurationSec : JSIntNum) :
    JSIntNum × Bool :=
  if JSIntNum.isNaN val = false ∧ JSIntNum.gtZero val = true
      ∧ val ≠ trialDurationSec then
    (val, true)
  else (trialDurationSec, false)

/-! ## Time-axis ticks (src/components/EEGCanvas.tsx)

Source:  `let tickInterval = 1; if (totalTime > 10) tickInterval = 2;
if (totalTime > 30) tickInterval = 5;` and each tick is labeled
`(sec + startTime) + "s"`. -/

def tickInterval (totalTime : ℚ) : ℕ :=
  if 30 < totalTime then 5
  else if 10 < totalTime then 2
  else 1

def tickLabel (startTime sec : ℚ) : ℚ := sec + startTime

/-! ## DSP core (src/utils/dsp.ts)

`Math.cos`, `Math.sin`, `Math.sqrt`, `Math.log10` and `Math.PI` are
platform built-ins operating on IEEE-754 doubles; the embedding abstracts
them into a record so the structural theorems hold for any interpretation. -/

structure DSPOps (α : Type) where
  cos : α → α
  sin : α → α
  sqrt : α → α
  log10 : α → α
  pi : α

/-- The `Complex` class of dsp.ts: a pair of a real and an imaginary part. -/
structure Complex (α : Type) where
  real : α
  imag : α

section DSP

variable {α : Type} [LinearOrderedField α]

/-- Even-indexed elements: `input.filter((_, i) => i % 2 === 0)`. -/
def evens {β : Type} : List β → List β
  | [] => []
  | a :: rest =>
    match rest with
    | [] => [a]
    | _ :: rest' => a :: evens rest'

/-- Odd-indexed elements: `input.filter((_, i) => i % 2 !== 0)`. -/
def odds {β : Type} : List β → List β
  | [] => []
  | _ :: rest =>
    match rest with
    | [] => []
    | b :: rest' => b :: odds rest'

/-- Lengths of the even/odd deinterleavings (needed to justify the
termination of the recursive FFT). -/
theorem evens_odds_length {β : Type} :
    ∀ l : List β, (evens l).length = (l.length + 1) / 2 ∧
      (odds l).length = l.length / 2
  | [] => by constructor <;> simp [evens, odds]
  | [_] => by constructor <;> simp [evens, odds]
  | _ :: _ :: rest => by
    have ih := evens_odds_length rest
    refine ⟨?_, ?_⟩
    · simp only [evens, List.length_cons, ih.1]; omega
    · simp only [odds, List.length_cons, ih.2]; omega

/-- Recursive radix-2 Cooley–Tukey FFT of dsp.ts.  The source fills one
array `combined` of length `n`, writing `combined[k]` and
`combined[k + n/2]` in a single loop over `k < n/2`; the embedding builds
the same array as the concatenation of its two halves.  Out-of-range reads
(never exercised on power-of-two input lengths) use the default `⟨0, 0⟩`. -/
def fft (ops : DSPOps α) (input : List (Complex α)) : List (Complex α) :=
  if h : input.length ≤ 1 then input
  else
    let n := input.length
    let e := fft ops (evens input)
    let o := fft ops (odds input)
    (List.range (n / 2)).map (fun (k : ℕ) =>
      let angle := -2 * ops.pi * (k : α) / (n : α)
      let w : Complex α := ⟨ops.cos angle, ops.sin angle⟩
      let odk := o.getD k ⟨0, 0⟩
      let evk := e.getD k ⟨0, 0⟩
      -- w * odd[k]
      let wOdd : Complex α := ⟨w.real * odk.real - w.imag * odk.imag,
                               w.real * odk.imag + w.imag * odk.real⟩
      (⟨evk.real + wOdd.real, evk.imag + wOdd.imag⟩ : Complex α)) ++
    (List.range (n / 2)).map (fun (k : ℕ) =>
      let angle := -2 * ops.pi * (k : α) / (n : α)
      let w : Complex α := ⟨ops.cos angle, ops.sin angle⟩
      let odk := o.getD k ⟨0, 0⟩
      let evk := e.getD k ⟨0, 0⟩
      let wOdd : Complex α := ⟨w.real * odk.real - w.imag * odk.imag,
                               w.real * odk.imag + w.imag * odk.real⟩
      (⟨evk.real - wOdd.real, evk.imag - wOdd.imag⟩ : Complex α))
termination_by input.length
decreasing_by
  · have := evens_odds_length (β := Complex α) input
    omega
  · have := evens_odds_length (β := Complex α) input
    omega

/-- Next power of two: `Math.pow(2, Math.ceil(Math.log2(n)))`.
Agrees with the source for every `n ≥ 1`; the source is only ever applied
to chunks of length `windowSize ≥ 1`.  (For `n = 0` JS produces
`2^(-Infinity) = 0`.) -/
def nextPow2 (n : ℕ) : ℕ := 2 ^ Nat.clog 2 n

/-- The `computeMagnitude` function of dsp.ts: zero-pad to the next power of two, FFT,
and return `sqrt(re² + im²)` of the first `pow2/2` bins. -/
def computeMagnitude (ops : DSPOps α) (signal : List α) : List α :=
  let pow2 := nextPow2 signal.length
  -- complexSignal[i] = new Complex(i < signal.length ? signal[i] : 0, 0)
  let complexSignal := (List.range pow2).map
    (fun i => (⟨signal.getD i 0, 0⟩ : Complex α))
  let spectrum := fft ops complexSignal
  (List.range (pow2 / 2)).map (fun i =>
    let c := spectrum.getD i ⟨0, 0⟩
    ops.sqrt (c.real ^ 2 + c.imag ^ 2))

/-- The `hanningWindow` function of dsp.ts: `w[i] = 0.5 * (1 - cos(2πi / (size-1)))`. -/
def hanningWindow (ops : DSPOps α) (size : ℕ) : List α :=
  (List.range size).map (fun (i : ℕ) =>
    1/2 * (1 - ops.cos (2 * ops.pi * (i : α) / ((size : α) - 1))))

/-- The `SpectrogramData` interface of dsp.ts.  The running min/max
trackers start from JavaScript `Infinity` / `-Infinity`, hence the
`WithTop` / `WithBot` types. -/
structure SpectrogramData (α : Type) where
  magnitudes : List (List α)
  freqs : List α
  times : List α
  maxMag : WithBot α
  minMag : WithTop α

/-- One row of the spectrogram grid: the window starting at sample `i`,
multiplied pointwise by the window coefficients, then
`computeMagnitude`, then `20 * log10(m + 1e-6)` per bin.  (`1e-6` is
written `1/1000000`.) -/
def logRow (ops : DSPOps α) (signal windowFunc : List α)
    (windowSize i : ℕ) : List α :=
  let chunk := (List.range windowSize).map
    (fun j => signal.getD (i + j) 0 * windowFunc.getD j 0)
  (computeMagnitude ops chunk).map (fun m => ops.log10 (m + 1/1000000) * 20)

/-- The sliding-window loop
`for (let i = 0; i <= signal.length - windowSize; i += step)` of
`computeSpectrogram`.  The `0 < step` guard makes the function total; the
source loops forever when `step ≤ 0` (i.e. `overlap ≥ windowSize`), a
regime excluded by every caller and claim. -/
def slideWindows (ops : DSPOps α) (signal windowFunc : List α)
    (windowSize step i : ℕ) : List (List α) :=
  if h : 0 < step ∧ i + windowSize ≤ signal.length then
    logRow ops signal windowFunc windowSize i ::
      slideWindows ops signal windowFunc windowSize step (i + step)
  else []
termination_by signal.length + 1 - i
decreasing_by omega

/-- The running-maximum update `if (val > maxMag) maxMag = val`, folded
over the produced pseudo-dB values in production order, starting from
`-Infinity`. -/
def foldMax (l : List α) (b : WithBot α) : WithBot α :=
  l.foldl (fun mMax v => if mMax < (v : WithBot α) then (v : WithBot α) else mMax) b

/-- The running-minimum update `if (val < minMag) minMag = val`, starting
from `Infinity`. -/
def foldMin (l : List α) (b : WithTop α) : WithTop α :=
  l.foldl (fun mMin v => if (v : WithTop α) < mMin then (v : WithTop α) else mMin) b

/-- The `computeSpectrogram` function of dsp.ts.  The source updates `maxMag`/`minMag`
inside the per-row `map`; the embedding computes the rows first and folds
the identical updates over the same values in the same order
(row-major, i.e. over `result.flatten`). -/
def computeSpectrogram (ops : DSPOps α) (signal : List α) (sampleRate : α)
    (windowSize : ℕ := 256) (overlap : ℕ := 128) : SpectrogramData α :=
  let step := windowSize - overlap
  let windowFunc := hanningWindow ops windowSize
  let result := slideWindows ops signal windowFunc windowSize step 0
  let numFreqBins := windowSize / 2
  let freqs := (List.range numFreqBins).map
    (fun (i : ℕ) => (i : α) * sampleRate / (windowSize : α))
  let times := (List.range result.length).map
    (fun (i : ℕ) => (i : α) * (step : α) / sampleRate)
  { magnitudes := result
    freqs := freqs
    times := times
    maxMag := foldMax result.flatten ⊥
    minMag := foldMin result.flatten ⊤ }

/-- The read `magnitudes[0].length` performed unconditionally by the draw
effect of the Spectrogram component; `none` models the `TypeError` thrown
when the grid is empty (`magnitudes[0]` is `undefined`). -/
def drawNumFreqBins (s : SpectrogramData α) : Option ℕ :=
  (s.magnitudes[0]?).map List.length

end DSP

/-- A concrete, executable interpretation of the transcendental
primitives over ℚ, used to instantiate the general theorems on explicit
inputs.  (`sqrt` is the identity, so `sqrt 0 = 0` as for `Math.sqrt`.) -/
def ratOps : DSPOps ℚ :=
  { cos := fun _ => 0
    sin := fun _ => 0
    sqrt := fun x => x
    log10 := fun x => x
    pi := 0 }

/-- Number of iterations performed by the sliding-window loop when started
at offset `i` (a proof-side quantity, not part of the source). -/
def slideCount (len windowSize step i : ℕ) : ℕ :=
  if i + windowSize ≤ len then (len - windowSize - i) / step + 1 else 0

/-! ## Supporting lemmas -/

section SupportLemmas

variable {α : Type} [LinearOrderedField α]

theorem foldMax_bounds (l : List α) : ∀ b : WithBot α,
    b ≤ foldMax l b ∧ ∀ v ∈ l, (v : WithBot α) ≤ foldMax l b := by
  induction l with
  | nil => intro b; exact ⟨le_rfl, by simp⟩
  | cons a l ih =>
    intro b
    have hstep : foldMax (a :: l) b
        = foldMax l (if b < (a : WithBot α) then (a : WithBot α) else b) := rfl
    have hb : b ≤ (if b < (a : WithBot α) then (a : WithBot α) else b) := by
      by_cases hba : b < (a : WithBot α)
      · rw [if_pos hba]; exact le_of_lt hba
      · rw [if_neg hba]
    have ha : (a : WithBot α) ≤ (if b < (a : WithBot α) then (a : WithBot α) else b) := by
      by_cases hba : b < (a : WithBot α)
      · rw [if_pos hba]
      · rw [if_neg hba]; exact le_of_not_lt hba
    refine ⟨hstep ▸ hb.trans (ih _).1, ?_⟩
    intro v hv
    rcases List.mem_cons.1 hv with rfl | hv
    · exact hstep ▸ ha.trans (ih _).1
    · exact hstep ▸ (ih _).2 v hv

theorem foldMax_eq_init_or_mem (l : List α) : ∀ b : WithBot α,
    foldMax l b = b ∨ ∃ v ∈ l, foldMax l b = (v : WithBot α) := by
  induction l with
  | nil => intro b; exact Or.inl rfl
  | cons a l ih =>
    intro b
    have hstep : foldMax (a :: l) b
        = foldMax l (if b < (a : WithBot α) then (a : WithBot α) else b) := rfl
    rcases ih (if b < (a : WithBot α) then (a : WithBot α) else b) with h | ⟨v, hv, h⟩
    · by_cases hba : b < (a : WithBot α)
      · exact Or.inr ⟨a, List.mem_cons_self a l, by rw [hstep, h, if_pos hba]⟩
      · exact Or.inl (by rw [hstep, h, if_neg hba])
    · exact Or.inr ⟨v, List.mem_cons_of_mem a hv, hstep ▸ h⟩

/-- On a nonempty list the running-maximum fold started from `-Infinity`
returns the greatest element of the list. -/
theorem foldMax_spec (l : List α) (hne : l ≠ []) :
    ∃ m : α, foldMax l ⊥ = (m : WithBot α) ∧ m ∈ l ∧ ∀ x ∈ l, x ≤ m := by
  rcases foldMax_eq_init_or_mem l ⊥ with h | ⟨v, hv, h⟩
  · obtain ⟨x, hx⟩ := List.exists_mem_of_ne_nil l hne
    have hb := (foldMax_bounds l ⊥).2 x hx
    rw [h] at hb
    exact absurd hb (WithBot.not_coe_le_bot x)
  · refine ⟨v, h, hv, fun x hx => ?_⟩
    have hb := (foldMax_bounds l ⊥).2 x hx
    rw [h] at hb
    exact WithBot.coe_le_coe.1 hb

theorem foldMin_bounds (l : List α) : ∀ b : WithTop α,
    foldMin l b ≤ b ∧ ∀ v ∈ l, foldMin l b ≤ (v : WithTop α) := by
  induction l with
  | nil => intro b; exact ⟨le_rfl, by simp⟩
  | cons a l ih =>
    intro b
    have hstep : foldMin (a :: l) b
        = foldMin l (if (a : WithTop α) < b then (a : WithTop α) else b) := rfl
    have hb : (if (a : WithTop α) < b then (a : WithTop α) else b) ≤ b := by
      by_cases hba : (a : WithTop α) < b
      · rw [if_pos hba]; exact le_of_lt hba
      · rw [if_neg hba]
    have ha : (if (a : WithTop α) < b then (a : WithTop α) else b) ≤ (a : WithTop α) := by
      by_cases hba : (a : WithTop α) < b
      · rw [if_pos hba]
      · rw [if_neg hba]; exact le_of_not_lt hba
    refine ⟨hstep ▸ ((ih _).1.trans hb), ?_⟩
    intro v hv
    rcases List.mem_cons.1 hv with rfl | hv
    · exact hstep ▸ ((ih _).1.trans ha)
    · exact hstep ▸ (ih _).2 v hv

theorem foldMin_eq_init_or_mem (l : List α) : ∀ b : WithTop α,
    foldMin l b = b ∨ ∃ v ∈ l, foldMin l b = (v : WithTop α) := by
  induction l with
  | nil => intro b; exact Or.inl rfl
  | cons a l ih =>
    intro b
    have hstep : foldMin (a :: l) b
        = foldMin l (if (a : WithTop α) < b then (a : WithTop α) else b) := rfl
    rcases ih (if (a : WithTop α) < b then (a : WithTop α) else b) with h | ⟨v, hv, h⟩
    · by_cases hba : (a : WithTop α) < b
      · exact Or.inr ⟨a, List.mem_cons_self a l, by rw [hstep, h, if_pos hba]⟩
      · exact Or.inl (by rw [hstep, h, if_neg hba])
    · exact Or.inr ⟨v, List.mem_cons_of_mem a hv, hstep ▸ h⟩

/-- On a nonempty list the running-minimum fold started from `Infinity`
returns the least element of the list. -/
theorem foldMin_spec (l : List α) (hne : l ≠ []) :
    ∃ m : α, foldMin l ⊤ = (m : WithTop α) ∧ m ∈ l ∧ ∀ x ∈ l, m ≤ x := by
  rcases foldMin_eq_init_or_mem l ⊤ with h | ⟨v, hv, h⟩
  · obtain ⟨x, hx⟩ := List.exists_mem_of_ne_nil l hne
    have hb := (foldMin_bounds l ⊤).2 x hx
    rw [h] at hb
    exact absurd hb (WithTop.not_top_le_coe x)
  · refine ⟨v, h, hv, fun x hx => ?_⟩
    have hb := (foldMin_bounds l ⊤).2 x hx
    rw [h] at hb
    exact WithTop.coe_le_coe.1 hb

/-- The sliding-window loop visits exactly the offsets `i + r·step`. -/
theorem slideWindows_eq_map (ops : DSPOps α) (signal windowFunc : List α)
    (windowSize step : ℕ) (hstep : 0 < step) :
    ∀ i, slideWindows ops signal windowFunc windowSize step i =
      (List.range (slideCount signal.length windowSize step i)).map
        (fun r => logRow ops signal windowFunc windowSize (i + r * step)) := by
  have H : ∀ (fuel i : ℕ), signal.length + 1 - i ≤ fuel →
      slideWindows ops signal windowFunc windowSize step i =
        (List.range (slideCount signal.length windowSize step i)).map
          (fun r => logRow ops signal windowFunc windowSize (i + r * step)) := by
    intro fuel
    induction fuel with
    | zero =>
      intro i hi
      rw [slideWindows, dif_neg (by omega)]
      simp only [slideCount]
      rw [if_neg (by omega)]
      simp
    | succ fuel ih =>
      intro i hi
      by_cases hc : i + windowSize ≤ signal.length
      · rw [slideWindows, dif_pos ⟨hstep, hc⟩, ih (i + step) (by omega)]
        have hcount : slideCount signal.length windowSize step i
            = slideCount signal.length windowSize step (i + step) + 1 := by
          by_cases hc2 : i + step + windowSize ≤ signal.length
          · have h2 : step ≤ signal.length - windowSize - i := by omega
            have h3 : signal.length - windowSize - i - step
                = signal.length - windowSize - (i + step) := by omega
            simp only [slideCount]
            rw [if_pos hc, if_pos hc2, Nat.div_eq_sub_div hstep h2, h3]
          · have h4 : signal.length - windowSize - i < step := by omega
            simp only [slideCount]
            rw [if_pos hc, if_neg hc2, Nat.div_eq_of_lt h4]
        rw [hcount, List.range_succ_eq_map, List.map_cons, List.map_map]
        congr 1
        · simp
        · refine List.map_congr_left fun r _ => ?_
          simp only [Function.comp]
          congr 1
          rw [Nat.succ_eq_add_one]
          ring
      · rw [slideWindows, dif_neg (fun hand => hc hand.2)]
        simp only [slideCount]
        rw [if_neg hc]
        simp
  exact fun i => H (signal.length + 1 - i) i le_rfl

theorem slideCount_zero (len w step : ℕ) (h : w ≤ len) :
    slideCount len w step 0 = (len - w) / step + 1 := by
  simp only [slideCount]
  rw [if_pos (by omega)]
  simp

/-- The three interesting projections of `computeSpectrogram`, unfolded. -/
theorem computeSpectrogram_magnitudes (ops : DSPOps α) (signal : List α)
    (sampleRate : α) (w o : ℕ) :
    (computeSpectrogram ops signal sampleRate w o).magnitudes
      = slideWindows ops signal (hanningWindow ops w) w (w - o) 0 := rfl

theorem computeSpectrogram_maxMag (ops : DSPOps α) (signal : List α)
    (sampleRate : α) (w o : ℕ) :
    (computeSpectrogram ops signal sampleRate w o).maxMag
      = foldMax (slideWindows ops signal (hanningWindow ops w) w (w - o) 0).flatten ⊥ := rfl

theorem computeSpectrogram_minMag (ops : DSPOps α) (signal : List α)
    (sampleRate : α) (w o : ℕ) :
    (computeSpectrogram ops signal sampleRate w o).minMag
      = foldMin (slideWindows ops signal (hanningWindow ops w) w (w - o) 0).flatten ⊤ := rfl

/-- The indexed chunk extraction of the sliding loop is the slice
`signal[i .. i + windowSize)` multiplied pointwise by the window. -/
theorem chunk_eq_zipWith (signal wf : List α) (w i : ℕ)
    (hle : i + w ≤ signal.length) (hwf : w ≤ wf.length) :
    (List.range w).map (fun j => signal.getD (i + j) 0 * wf.getD j 0)
      = List.zipWith (fun a b => a * b) ((signal.drop i).take w) wf := by
  apply List.ext_getElem?
  intro n
  rw [List.getElem?_map, List.getElem?_zipWith', List.getElem?_take]
  by_cases hn : n < w
  · have h1 : i + n < signal.length := by omega
    have h2 : n < wf.length := by omega
    rw [if_pos hn, List.getElem?_range hn, List.getElem?_drop,
      List.getElem?_eq_getElem h1, List.getElem?_eq_getElem h2]
    simp [List.getD_eq_getElem?_getD, List.getElem?_eq_getElem h1,
      List.getElem?_eq_getElem h2]
  · rw [if_neg hn]
    have hr : (List.range w)[n]? = none :=
      List.getElem?_eq_none (by simpa using Nat.le_of_not_lt hn)
    rw [hr]
    simp

theorem hanningWindow_length (ops : DSPOps α) (w : ℕ) :
    (hanningWindow ops w).length = w := by
  simp [hanningWindow]

theorem logRow_length (ops : DSPOps α) (signal wf : List α) (w i : ℕ) :
    (logRow ops signal wf w i).length = nextPow2 w / 2 := by
  simp only [logRow, computeMagnitude, List.length_map, List.length_range]

theorem nextPow2_half_pos {w : ℕ} (h2 : 2 ≤ w) : 0 < nextPow2 w / 2 := by
  have hclog : 0 < Nat.clog 2 w := Nat.clog_pos (by norm_num) h2
  have hpow : 2 ^ 1 ≤ 2 ^ Nat.clog 2 w :=
    Nat.pow_le_pow_right (by norm_num) hclog
  exact Nat.div_pos (by simpa using hpow) (by norm_num)

end SupportLemmas

theorem clamp_eq_self {x : ℚ} (h0 : 0 ≤ x) (h1 : x ≤ 1) : max 0 (min 1 x) = x := by
  rw [min_eq_right h1, max_eq_right h0]

/-! ## Claim theorems -/

/-- C2 counterexample: `1/4 ≤ 3/8`, both lie in the segment
`[0.25, 0.5)`, yet the blue component of `getHeatmapColor` at `3/8` is
strictly below the blue component at `1/4` — the claim that every channel
is monotonically non-decreasing across each segment is false. -/
theorem getHeatmapColor_segment2_blue_cex :
    ((1:ℚ)/4 ≤ 3/8) ∧ ((1:ℚ)/4 < 1/2 ∧ 1/4 ≤ (1:ℚ)/4) ∧
    ((3:ℚ)/8 < 1/2 ∧ 1/4 ≤ (3:ℚ)/8) ∧
    (getHeatmapColor (3/8)).2.2 < (getHeatmapColor (1/4)).2.2 := by
  refine ⟨by norm_num, ⟨by norm_num, by norm_num⟩, ⟨by norm_num, by norm_num⟩, ?_⟩
  norm_num [getHeatmapColor]

/-- C2 (amended): `getHeatmapColor 0 = rgb(0,0,0)` and
`getHeatmapColor 1 = rgb(255,255,255)`; within each of the four segments
the red and green components are monotonically non-decreasing, and the
blue component is non-decreasing on segments 1, 3 and 4, but
non-increasing (ramping 255 down towards 55) on segment 2. -/
theorem getHeatmapColor_amended :
    getHeatmapColor 0 = (0, 0, 0) ∧
    getHeatmapColor 1 = (255, 255, 255) ∧
    (∀ u v : ℚ, 0 ≤ u → u ≤ v → v < 1/4 →
      (getHeatmapColor u).1 ≤ (getHeatmapColor v).1 ∧
      (getHeatmapColor u).2.1 ≤ (getHeatmapColor v).2.1 ∧
      (getHeatmapColor u).2.2 ≤ (getHeatmapColor v).2.2) ∧
    (∀ u v : ℚ, 1/4 ≤ u → u ≤ v → v < 1/2 →
      (getHeatmapColor u).1 ≤ (getHeatmapColor v).1 ∧
      (getHeatmapColor u).2.1 ≤ (getHeatmapColor v).2.1 ∧
      (getHeatmapColor v).2.2 ≤ (getHeatmapColor u).2.2) ∧
    (∀ u v : ℚ, 1/2 ≤ u → u ≤ v → v < 3/4 →
      (getHeatmapColor u).1 ≤ (getHeatmapColor v).1 ∧
      (getHeatmapColor u).2.1 ≤ (getHeatmapColor v).2.1 ∧
      (getHeatmapColor u).2.2 ≤ (getHeatmapColor v).2.2) ∧
    (∀ u v : ℚ, 3/4 ≤ u → u ≤ v → v ≤ 1 →
      (getHeatmapColor u).1 ≤ (getHeatmapColor v).1 ∧
      (getHeatmapColor u).2.1 ≤ (getHeatmapColor v).2.1 ∧
      (getHeatmapColor u).2.2 ≤ (getHeatmapColor v).2.2) := by
  refine ⟨by norm_num [getHeatmapColor], by norm_num [getHeatmapColor],
    ?_, ?_, ?_, ?_⟩
  · intro u v hu hle hv
    simp only [getHeatmapColor,
      clamp_eq_self hu (by linarith), clamp_eq_self (by linarith : (0:ℚ) ≤ v) (by linarith)]
    rw [if_pos (show u < 1/4 by linarith), if_pos (show v < 1/4 by linarith)]
    exact ⟨le_rfl, le_rfl, Int.floor_le_floor (by linarith)⟩
  · intro u v hu hle hv
    simp only [getHeatmapColor,
      clamp_eq_self (by linarith : (0:ℚ) ≤ u) (by linarith),
      clamp_eq_self (by linarith : (0:ℚ) ≤ v) (by linarith)]
    rw [if_neg (not_lt.2 (show (1:ℚ)/4 ≤ u by linarith)),
      if_neg (not_lt.2 (show (1:ℚ)/4 ≤ v by linarith)),
      if_pos (show u < 1/2 by linarith), if_pos (show v < 1/2 by linarith)]
    refine ⟨Int.floor_le_floor (by linarith), le_rfl, ?_⟩
    have hf := Int.floor_le_floor (show (u - 1/4) * 4 * 200 ≤ (v - 1/4) * 4 * 200 by linarith)
    exact sub_le_sub_left hf 255
  · intro u v hu hle hv
    simp only [getHeatmapColor,
      clamp_eq_self (by linarith : (0:ℚ) ≤ u) (by linarith),
      clamp_eq_self (by linarith : (0:ℚ) ≤ v) (by linarith)]
    rw [if_neg (not_lt.2 (show (1:ℚ)/4 ≤ u by linarith)),
      if_neg (not_lt.2 (show (1:ℚ)/4 ≤ v by linarith)),
      if_neg (not_lt.2 (show (1:ℚ)/2 ≤ u by linarith)),
      if_neg (not_lt.2 (show (1:ℚ)/2 ≤ v by linarith)),
      if_pos (show u < 3/4 by linarith), if_pos (show v < 3/4 by linarith)]
    exact ⟨le_rfl, Int.floor_le_floor (by linarith), le_rfl⟩
  · intro u v hu hle hv
    simp only [getHeatmapColor,
      clamp_eq_self (by linarith : (0:ℚ) ≤ u) (by linarith),
      clamp_eq_self (by linarith : (0:ℚ) ≤ v) hv]
    rw [if_neg (not_lt.2 (show (1:ℚ)/4 ≤ u by linarith)),
      if_neg (not_lt.2 (show (1:ℚ)/4 ≤ v by linarith)),
      if_neg (not_lt.2 (show (1:ℚ)/2 ≤ u by linarith)),
      if_neg (not_lt.2 (show (1:ℚ)/2 ≤ v by linarith)),
      if_neg (not_lt.2 (show (3:ℚ)/4 ≤ u by linarith)),
      if_neg (not_lt.2 (show (3:ℚ)/4 ≤ v by linarith))]
    exact ⟨le_rfl, le_rfl, Int.floor_le_floor (by linarith)⟩

/-- C2 witness: the amended monotonicity applied on concrete points of
segments 1 and 2. -/
theorem getHeatmapColor_amended_witness :
    ((getHeatmapColor 0).2.2 ≤ (getHeatmapColor (1/8)).2.2) ∧
    ((getHeatmapColor (3/8)).2.2 ≤ (getHeatmapColor (1/4)).2.2) :=
  ⟨(getHeatmapColor_amended.2.2.1 0 (1/8) (by norm_num) (by norm_num) (by norm_num)).2.2,
   (getHeatmapColor_amended.2.2.2.1 (1/4) (3/8) (by norm_num) (by norm_num) (by norm_num)).2.2⟩

/-- C3: `pointsPerTrial = samplingRate · trialDurationSec`,
`totalTrials = ceil(N / pointsPerTrial)` (definitionally), the paged slice
for trial `i` is exactly the rows `[i·L, min((i+1)·L, N))` of the matrix,
and in particular for `N = 1000`, `samplingRate = 100`,
`trialDurationSec = 5` there are 2 trials of 500 points, trial 0 covering
rows `[0, 500)` and trial 1 covering rows `[500, 1000)`. -/
theorem trial_windowing {ρ : Type} (data : List ρ) (samplingRate trialDurationSec : ℕ) :
    pointsPerTrial samplingRate trialDurationSec = samplingRate * trialDurationSec ∧
    totalTrials data.length (pointsPerTrial samplingRate trialDurationSec)
      = ⌈(data.length : ℚ) / (pointsPerTrial samplingRate trialDurationSec : ℚ)⌉₊ ∧
    (∀ i j : ℕ,
      (currentTrialDataSlice data false i (pointsPerTrial samplingRate trialDurationSec))[j]?
        = if i * pointsPerTrial samplingRate trialDurationSec + j
              < min ((i + 1) * pointsPerTrial samplingRate trialDurationSec) data.length
          then data[i * pointsPerTrial samplingRate trialDurationSec + j]? else none) ∧
    (data.length = 1000 →
      pointsPerTrial 100 5 = 500 ∧
      totalTrials data.length (pointsPerTrial 100 5) = 2 ∧
      currentTrialDataSlice data false 0 (pointsPerTrial 100 5) = data.take 500 ∧
      currentTrialDataSlice data false 1 (pointsPerTrial 100 5) = (data.drop 500).take 500) := by
  refine ⟨rfl, rfl, ?_, ?_⟩
  · intro i j
    set L := pointsPerTrial samplingRate trialDurationSec with hL
    simp only [currentTrialDataSlice, Bool.false_eq_true, if_false]
    rw [List.getElem?_take, List.getElem?_drop]
    have hexp : (i + 1) * L = i * L + L := by ring
    rw [hexp]
    by_cases hc : j < min (i * L + L) data.length - i * L
    · rw [if_pos hc, if_pos (by omega)]
    · rw [if_neg hc, if_neg (by omega)]
  · intro hlen
    have h500 : pointsPerTrial 100 5 = 500 := rfl
    refine ⟨rfl, ?_, ?_, ?_⟩
    · rw [hlen, h500]
      norm_num [totalTrials, Nat.ceil_eq_iff]
    · simp only [currentTrialDataSlice, Bool.false_eq_true, if_false, h500, hlen]
      norm_num
    · simp only [currentTrialDataSlice, Bool.false_eq_true, if_false, h500, hlen]
      norm_num

/-- C3 witness: the concrete trial layout on a 1000-row matrix. -/
theorem trial_windowing_witness :
    totalTrials (List.replicate 1000 (0 : ℕ)).length (pointsPerTrial 100 5) = 2 :=
  ((trial_windowing (List.replicate 1000 (0 : ℕ)) 100 5).2.2.2
    (List.length_replicate 1000 0)).2.1

/-- C5: the settle-interval guards validate only `!isNaN(val)` (plus
`val > 0` for the duration), not finiteness, so the non-finite parse
outcome `Infinity` — produced by `parseFloat("1e999")` or by `parseInt`
of a few hundred digits — passes validation and is committed and
propagated as gain resp. trial duration, contradicting the claim's
"committed iff it parses to a finite number / positive integer".
`NaN` and non-positive outcomes are rejected and finite outcomes commit
exactly as the claim says. -/
theorem debounce_commit_nonfinite (cur : ℚ) (curD : ℤ) (q : ℚ) (z : ℤ) :
    gainSettleEffect JSNum.posInf (JSNum.fin cur) = (JSNum.posInf, true) ∧
    JSNum.isFinite JSNum.posInf = false ∧
    durationSettleEffect JSIntNum.posInf (JSIntNum.fin curD)
      = (JSIntNum.posInf, true) ∧
    JSIntNum.isFinite JSIntNum.posInf = false ∧
    gainSettleEffect JSNum.nan (JSNum.fin cur) = (JSNum.fin cur, false) ∧
    durationSettleEffect JSIntNum.nan (JSIntNum.fin curD)
      = (JSIntNum.fin curD, false) ∧
    gainSettleEffect (JSNum.fin q) (JSNum.fin cur)
      = (if q = cur then (JSNum.fin cur, false) else (JSNum.fin q, true)) ∧
    durationSettleEffect (JSIntNum.fin z) (JSIntNum.fin curD)
      = (if 0 < z ∧ z ≠ curD then (JSIntNum.fin z, true)
         else (JSIntNum.fin curD, false)) := by
  refine ⟨?_, rfl, ?_, rfl, ?_, ?_, ?_, ?_⟩
  · simp [gainSettleEffect, JSNum.isNaN]
  · simp [durationSettleEffect, JSIntNum.isNaN, JSIntNum.gtZero]
  · simp [gainSettleEffect, JSNum.isNaN]
  · simp [durationSettleEffect, JSIntNum.isNaN]
  · by_cases h : q = cur <;> simp [gainSettleEffect, JSNum.isNaN, h]
  · by_cases h1 : 0 < z <;> by_cases h2 : z = curD <;>
      simp [durationSettleEffect, JSIntNum.isNaN, JSIntNum.gtZero, h1, h2]

/-- C6 counterexample: a slice of exactly 10 seconds is "below 30
seconds" and not "below 10 seconds", so the claim demands a 2 s tick
interval, but the renderer (using strict `>` comparisons) chooses 1 s. -/
theorem tickInterval_boundary_cex :
    ((10:ℚ) < 30) ∧ ¬((10:ℚ) < 10) ∧ tickInterval 10 ≠ 2 ∧ tickInterval 10 = 1 := by
  refine ⟨by norm_num, by norm_num, by decide, by decide⟩

/-- C6 (amended): the tick interval is 1 s for `T ≤ 10`, 2 s for
`10 < T ≤ 30` and 5 s for `T > 30` (the comparisons are strict on the
upper side), and each tick is labeled with the absolute time
`startOffset + tickSeconds`. -/
theorem tickInterval_amended (T : ℚ) :
    (T ≤ 10 → tickInterval T = 1) ∧
    (10 < T → T ≤ 30 → tickInterval T = 2) ∧
    (30 < T → tickInterval T = 5) ∧
    (∀ startTime sec : ℚ, tickLabel startTime sec = startTime + sec) := by
  refine ⟨?_, ?_, ?_, ?_⟩
  · intro h
    simp only [tickInterval]
    rw [if_neg (by linarith), if_neg (by linarith)]
  · intro h1 h2
    simp only [tickInterval]
    rw [if_neg (by linarith), if_pos h1]
  · intro h
    simp only [tickInterval]
    rw [if_pos h]
  · intro s c
    simp [tickLabel, add_comm]

/-- C6 witness: the amended tick-interval rule at 5 s, 20 s and 40 s. -/
theorem tickInterval_amended_witness :
    tickInterval 5 = 1 ∧ tickInterval 20 = 2 ∧ tickInterval 40 = 5 :=
  ⟨(tickInterval_amended 5).1 (by decide),
   (tickInterval_amended 20).2.1 (by decide) (by decide),
   (tickInterval_amended 40).2.2.1 (by decide)⟩

/-- C8: adding an annotation with an empty or whitespace-only note is a
no-op; with a non-whitespace note it appends exactly one annotation bound
to the current trial with timestamp `currentTrial · trialDurationSec`,
leaving the existing annotations unchanged (in particular, at trial 2
with duration 5 the new timestamp is 10). -/
theorem addAnnot_spec (annots : List Annot) (currentTrial trialDurationSec now : ℕ)
    (note : String) (ty : AnnType) :
    (jsTrim note = "" →
      addAnnot annots currentTrial trialDurationSec now note ty = annots) ∧
    (jsTrim note ≠ "" →
      addAnnot annots currentTrial trialDurationSec now note ty
        = annots ++ [{ id := now, trialIndex := currentTrial,
                       timestamp := currentTrial * trialDurationSec,
                       note := note, type := ty }]) ∧
    (jsTrim note ≠ "" → ∀ a ∈ addAnnot annots 2 5 now note ty,
      a ∉ annots → a.timestamp = 10 ∧ a.trialIndex = 2) := by
  refine ⟨?_, ?_, ?_⟩
  · intro h; simp [addAnnot, h]
  · intro h; simp [addAnnot, h]
  · intro h a ha hnotin
    rw [addAnnot, if_neg h] at ha
    rcases List.mem_append.1 ha with hmem | hmem
    · exact absurd hmem hnotin
    · rcases List.mem_singleton.1 hmem with rfl
      exact ⟨rfl, rfl⟩

/-- C8 witness: a whitespace note is rejected; a concrete note at trial 2
with duration 5 is appended with timestamp 10. -/
theorem addAnnot_spec_witness :
    addAnnot [] 2 5 7 "  " AnnType.normal = [] ∧
    addAnnot [] 2 5 7 "x" AnnType.normal
      = [{ id := 7, trialIndex := 2, timestamp := 10,
           note := "x", type := AnnType.normal }] :=
  ⟨(addAnnot_spec [] 2 5 7 "  " AnnType.normal).1 (by decide),
   (addAnnot_spec [] 2 5 7 "x" AnnType.normal).2.1 (by decide)⟩

/-- C9: with at least one trial, "previous" at trial 0 stays at 0 and
"next" at the last trial stays at the last trial; both operations are
total functions (clamping, never faulting). -/
theorem navigation_clamp (tTrials : ℕ) (h1 : 1 ≤ tTrials) :
    handlePrev 0 = 0 ∧
    handleNext tTrials ((tTrials : ℤ) - 1) = (tTrials : ℤ) - 1 := by
  refine ⟨by decide, ?_⟩
  simp only [handleNext]
  omega

/-- C9 witness: three trials, clamped at both ends. -/
theorem navigation_clamp_witness :
    handlePrev 0 = 0 ∧ handleNext 3 ((3 : ℤ) - 1) = (3 : ℤ) - 1 :=
  navigation_clamp 3 (by decide)

/-- C1: with `step = windowSize − overlap`, a signal of length
`N ≥ windowSize` yields exactly `⌊(N − windowSize)/step⌋ + 1` grid rows;
row `r` is the log-magnitude pipeline (Hann windowing of samples
`[r·step, r·step + windowSize)`, zero-padding to the next power of two,
FFT, magnitude of the first `paddedLength/2` bins, `20·log10(m + 1e-6)`);
`maxMag` and `minMag` are the greatest and least entries of the grid.
`windowSize ≥ 2` keeps the Hann denominator `windowSize − 1` nonzero and
every row nonempty. -/
theorem computeSpectrogram_characterization {α : Type} [LinearOrderedField α]
    (ops : DSPOps α) (signal : List α) (sampleRate : α) (windowSize overlap : ℕ)
    (h2 : 2 ≤ windowSize) (hov : overlap < windowSize)
    (hlen : windowSize ≤ signal.length) :
    (computeSpectrogram ops signal sampleRate windowSize overlap).magnitudes.length
      = (signal.length - windowSize) / (windowSize - overlap) + 1 ∧
    (∀ r, r < (computeSpectrogram ops signal sampleRate windowSize overlap).magnitudes.length →
      (computeSpectrogram ops signal sampleRate windowSize overlap).magnitudes[r]?
        = some ((computeMagnitude ops (List.zipWith (fun a b => a * b)
            ((signal.drop (r * (windowSize - overlap))).take windowSize)
            (hanningWindow ops windowSize))).map
              (fun m => ops.log10 (m + 1/1000000) * 20))) ∧
    (∃ m : α,
      (computeSpectrogram ops signal sampleRate windowSize overlap).maxMag = (m : WithBot α) ∧
      m ∈ (computeSpectrogram ops signal sampleRate windowSize overlap).magnitudes.flatten ∧
      ∀ x ∈ (computeSpectrogram ops signal sampleRate windowSize overlap).magnitudes.flatten,
        x ≤ m) ∧
    (∃ m : α,
      (computeSpectrogram ops signal sampleRate windowSize overlap).minMag = (m : WithTop α) ∧
      m ∈ (computeSpectrogram ops signal sampleRate windowSize overlap).magnitudes.flatten ∧
      ∀ x ∈ (computeSpectrogram ops signal sampleRate windowSize overlap).magnitudes.flatten,
        m ≤ x) := by
  have hstep : 0 < windowSize - overlap := by omega
  have hmag : (computeSpectrogram ops signal sampleRate windowSize overlap).magnitudes
      = (List.range ((signal.length - windowSize) / (windowSize - overlap) + 1)).map
          (fun r => logRow ops signal (hanningWindow ops windowSize) windowSize
            (0 + r * (windowSize - overlap))) := by
    rw [computeSpectrogram_magnitudes,
      slideWindows_eq_map ops signal (hanningWindow ops windowSize) windowSize
        (windowSize - overlap) hstep 0,
      slideCount_zero _ _ _ hlen]
  have hlength : (computeSpectrogram ops signal sampleRate windowSize overlap).magnitudes.length
      = (signal.length - windowSize) / (windowSize - overlap) + 1 := by
    rw [hmag, List.length_map, List.length_range]
  have hmemflat : ∃ x, x ∈ (computeSpectrogram ops signal sampleRate windowSize overlap).magnitudes.flatten := by
    have hrow0 : logRow ops signal (hanningWindow ops windowSize) windowSize
        (0 + 0 * (windowSize - overlap))
        ∈ (computeSpectrogram ops signal sampleRate windowSize overlap).magnitudes := by
      rw [hmag]
      exact List.mem_map_of_mem _ (List.mem_range.2 (Nat.succ_pos _))
    have hrlen : 0 < (logRow ops signal (hanningWindow ops windowSize) windowSize
        (0 + 0 * (windowSize - overlap))).length := by
      rw [logRow_length]
      exact nextPow2_half_pos h2
    obtain ⟨x, hx⟩ := List.exists_mem_of_ne_nil _ (List.length_pos.1 hrlen)
    exact ⟨x, List.mem_flatten.2 ⟨_, hrow0, hx⟩⟩
  obtain ⟨x0, hx0⟩ := hmemflat
  have hflatne : (computeSpectrogram ops signal sampleRate windowSize overlap).magnitudes.flatten ≠ [] :=
    List.ne_nil_of_mem hx0
  refine ⟨hlength, ?_, ?_, ?_⟩
  · intro r hr
    rw [hlength] at hr
    rw [hmag, List.getElem?_map, List.getElem?_range hr, Option.map_some']
    congr 1
    rw [zero_add]
    have hle : r * (windowSize - overlap) + windowSize ≤ signal.length := by
      have hr' : r ≤ (signal.length - windowSize) / (windowSize - overlap) := by omega
      have hm1 : r * (windowSize - overlap)
          ≤ ((signal.length - windowSize) / (windowSize - overlap)) * (windowSize - overlap) :=
        Nat.mul_le_mul_right _ hr'
      have hm2 : ((signal.length - windowSize) / (windowSize - overlap)) * (windowSize - overlap)
          ≤ signal.length - windowSize := Nat.div_mul_le_self _ _
      omega
    simp only [logRow]
    rw [chunk_eq_zipWith signal (hanningWindow ops windowSize) windowSize
      (r * (windowSize - overlap)) hle (le_of_eq (hanningWindow_length ops windowSize).symm)]
  · have hM : (computeSpectrogram ops signal sampleRate windowSize overlap).maxMag
        = foldMax (computeSpectrogram ops signal sampleRate windowSize overlap).magnitudes.flatten ⊥ := by
      rw [computeSpectrogram_maxMag, computeSpectrogram_magnitudes]
    obtain ⟨m, hm1, hm2, hm3⟩ := foldMax_spec _ hflatne
    exact ⟨m, by rw [hM]; exact hm1, hm2, hm3⟩
  · have hM : (computeSpectrogram ops signal sampleRate windowSize overlap).minMag
        = foldMin (computeSpectrogram ops signal sampleRate windowSize overlap).magnitudes.flatten ⊤ := by
      rw [computeSpectrogram_minMag, computeSpectrogram_magnitudes]
    obtain ⟨m, hm1, hm2, hm3⟩ := foldMin_spec _ hflatne
    exact ⟨m, by rw [hM]; exact hm1, hm2, hm3⟩

/-- C1 witness: a length-4 signal with `windowSize = 2`, `overlap = 1`
produces `(4 − 2)/1 + 1 = 3` rows. -/
theorem computeSpectrogram_characterization_witness :
    (computeSpectrogram ratOps (List.replicate 4 (1:ℚ)) 1 2 1).magnitudes.length = 3 :=
  (computeSpectrogram_characterization ratOps (List.replicate 4 (1:ℚ)) 1 2 1
    (by decide) (by decide) (by decide)).1

/-- C4: a nonempty signal shorter than the window produces an empty grid,
and the Spectrogram draw effect's unconditional read
`magnitudes[0].length` has no value on it (the `undefined` dereference the
source performs). -/
theorem shortSignal_spectrogram {α : Type} [LinearOrderedField α]
    (ops : DSPOps α) (signal : List α) (sampleRate : α) (windowSize overlap : ℕ)
    (hne : signal ≠ []) (hshort : signal.length < windowSize) :
    (computeSpectrogram ops signal sampleRate windowSize overlap).magnitudes = [] ∧
    drawNumFreqBins (computeSpectrogram ops signal sampleRate windowSize overlap) = none := by
  have hmag : (computeSpectrogram ops signal sampleRate windowSize overlap).magnitudes = [] := by
    rw [computeSpectrogram_magnitudes, slideWindows,
      dif_neg (fun hand => absurd hand.2 (by omega))]
  exact ⟨hmag, by simp [drawNumFreqBins, hmag]⟩

/-- C4 witness: three samples against the default 256-sample window. -/
theorem shortSignal_spectrogram_witness :
    (computeSpectrogram ratOps (List.replicate 3 (0:ℚ)) 1 256 128).magnitudes = [] ∧
    drawNumFreqBins (computeSpectrogram ratOps (List.replicate 3 (0:ℚ)) 1 256 128) = none :=
  shortSignal_spectrogram ratOps (List.replicate 3 (0:ℚ)) 1 256 128
    (by decide) (by decide)

/-- Membership in the even/odd deinterleavings implies membership in the
original list. -/
theorem mem_evens_odds {β : Type} :
    ∀ l : List β, (∀ x ∈ evens l, x ∈ l) ∧ (∀ x ∈ odds l, x ∈ l)
  | [] => by constructor <;> simp [evens, odds]
  | [a] => by constructor <;> simp [evens, odds]
  | a :: b :: rest => by
    have ih := mem_evens_odds rest
    constructor
    · intro x hx
      simp only [evens] at hx
      rcases List.mem_cons.1 hx with rfl | hx
      · exact List.mem_cons_self _ _
      · exact List.mem_cons_of_mem _ (List.mem_cons_of_mem _ (ih.1 x hx))
    · intro x hx
      simp only [odds] at hx
      rcases List.mem_cons.1 hx with rfl | hx
      · exact List.mem_cons_of_mem _ (List.mem_cons_self _ _)
      · exact List.mem_cons_of_mem _ (List.mem_cons_of_mem _ (ih.2 x hx))

theorem getD_eq_of_all {β : Type} (l : List β) (c : β) (h : ∀ y ∈ l, y = c)
    (k : ℕ) : l.getD k c = c := by
  rw [List.getD_eq_getElem?_getD]
  cases hk : l[k]? with
  | none => rfl
  | some y =>
    rw [Option.getD_some]
    exact h y (List.getElem?_mem hk)

/-- The FFT of an all-zero input is all-zero (for any interpretation of
the trig primitives, since every output entry is a sum of products with a
zero factor). -/
theorem fft_all_zero {α : Type} [LinearOrderedField α] (ops : DSPOps α) :
    ∀ (fuel : ℕ) (l : List (Complex α)), l.length ≤ fuel →
      (∀ x ∈ l, x = (⟨0, 0⟩ : Complex α)) →
      ∀ x ∈ fft ops l, x = (⟨0, 0⟩ : Complex α) := by
  intro fuel
  induction fuel with
  | zero =>
    intro l hl hz x hx
    rw [fft, dif_pos (by omega)] at hx
    exact hz x hx
  | succ fuel ih =>
    intro l hl hz x hx
    by_cases h1 : l.length ≤ 1
    · rw [fft, dif_pos h1] at hx
      exact hz x hx
    · rw [fft, dif_neg h1] at hx
      have hev : ∀ y ∈ fft ops (evens l), y = (⟨0, 0⟩ : Complex α) :=
        ih (evens l) (by have := (evens_odds_length l).1; omega)
          (fun y hy => hz y ((mem_evens_odds l).1 y hy))
      have hod : ∀ y ∈ fft ops (odds l), y = (⟨0, 0⟩ : Complex α) :=
        ih (odds l) (by have := (evens_odds_length l).2; omega)
          (fun y hy => hz y ((mem_evens_odds l).2 y hy))
      simp only [List.mem_append, List.mem_map, List.mem_range] at hx
      rcases hx with ⟨k, hk, rfl⟩ | ⟨k, hk, rfl⟩ <;>
      · have he := getD_eq_of_all _ _ hev k
        have ho := getD_eq_of_all _ _ hod k
        rw [List.getD_eq_getElem?_getD] at he ho
        simp [he, ho]

/-- `computeMagnitude` of an all-zero chunk is the all-zero list of
`nextPow2/2` bins (needs only `sqrt 0 = 0`, true of `Math.sqrt`). -/
theorem computeMagnitude_zero {α : Type} [LinearOrderedField α]
    (ops : DSPOps α) (w : ℕ) (hsqrt : ops.sqrt 0 = 0) :
    computeMagnitude ops (List.replicate w (0 : α))
      = List.replicate (nextPow2 w / 2) (0 : α) := by
  rw [List.eq_replicate_iff]
  constructor
  · simp only [computeMagnitude, List.length_map, List.length_range,
      List.length_replicate]
  · intro b hb
    simp only [computeMagnitude, List.length_replicate, List.mem_map,
      List.mem_range] at hb
    obtain ⟨i, _, rfl⟩ := hb
    have hin : ∀ y ∈ (List.range (nextPow2 w)).map
        (fun i => (⟨(List.replicate w (0:α)).getD i 0, 0⟩ : Complex α)),
        y = (⟨0, 0⟩ : Complex α) := by
      intro y hy
      simp only [List.mem_map, List.mem_range] at hy
      obtain ⟨j, _, rfl⟩ := hy
      rw [getD_eq_of_all _ _ (fun z hz => List.eq_of_mem_replicate hz) j]
    have hspec : ∀ y ∈ fft ops ((List.range (nextPow2 w)).map
        (fun i => (⟨(List.replicate w (0:α)).getD i 0, 0⟩ : Complex α))),
        y = (⟨0, 0⟩ : Complex α) :=
      fft_all_zero ops _ _ le_rfl hin
    rw [getD_eq_of_all _ _ hspec i]
    simpa using hsqrt

/-- A grid row of an all-zero signal is the constant
`20·log10(1e-6)` row. -/
theorem logRow_zero {α : Type} [LinearOrderedField α] (ops : DSPOps α)
    (N : ℕ) (wf : List α) (w i : ℕ) (hsqrt : ops.sqrt 0 = 0) :
    logRow ops (List.replicate N (0:α)) wf w i
      = List.replicate (nextPow2 w / 2) (ops.log10 (1/1000000) * 20) := by
  have hchunk : (List.range w).map
      (fun j => (List.replicate N (0:α)).getD (i + j) 0 * wf.getD j 0)
      = List.replicate w (0:α) := by
    rw [List.eq_replicate_iff]
    refine ⟨by simp, ?_⟩
    intro b hb
    simp only [List.mem_map, List.mem_range] at hb
    obtain ⟨j, _, rfl⟩ := hb
    rw [getD_eq_of_all _ _ (fun z hz => List.eq_of_mem_replicate hz) (i + j),
      zero_mul]
  simp only [logRow]
  rw [hchunk, computeMagnitude_zero ops w hsqrt, List.map_replicate, zero_add]

/-- C7: on an all-zero signal of length at least `windowSize` every grid
entry equals `20·log10(1e-6)`, and the returned `maxMag` and `minMag` are
both that same constant. -/
theorem spectrogram_zero_signal {α : Type} [LinearOrderedField α]
    (ops : DSPOps α) (N windowSize overlap : ℕ) (sampleRate : α)
    (hsqrt : ops.sqrt 0 = 0) (h2 : 2 ≤ windowSize) (hov : overlap < windowSize)
    (hN : windowSize ≤ N) :
    (∀ row ∈ (computeSpectrogram ops (List.replicate N (0:α)) sampleRate
        windowSize overlap).magnitudes, ∀ x ∈ row, x = ops.log10 (1/1000000) * 20) ∧
    (computeSpectrogram ops (List.replicate N (0:α)) sampleRate windowSize overlap).maxMag
      = ((ops.log10 (1/1000000) * 20 : α) : WithBot α) ∧
    (computeSpectrogram ops (List.replicate N (0:α)) sampleRate windowSize overlap).minMag
      = ((ops.log10 (1/1000000) * 20 : α) : WithTop α) := by
  have hstep : 0 < windowSize - overlap := by omega
  have hmag : (computeSpectrogram ops (List.replicate N (0:α)) sampleRate
      windowSize overlap).magnitudes
      = (List.range (slideCount N windowSize (windowSize - overlap) 0)).map
          (fun r => logRow ops (List.replicate N (0:α)) (hanningWindow ops windowSize)
            windowSize (0 + r * (windowSize - overlap))) := by
    rw [computeSpectrogram_magnitudes,
      slideWindows_eq_map ops (List.replicate N (0:α)) (hanningWindow ops windowSize)
        windowSize (windowSize - overlap) hstep 0]
    simp only [List.length_replicate]
  have hrows : ∀ row ∈ (computeSpectrogram ops (List.replicate N (0:α)) sampleRate
      windowSize overlap).magnitudes,
      row = List.replicate (nextPow2 windowSize / 2) (ops.log10 (1/1000000) * 20) := by
    intro row hrow
    rw [hmag] at hrow
    simp only [List.mem_map, List.mem_range] at hrow
    obtain ⟨r, _, rfl⟩ := hrow
    exact logRow_zero ops N _ windowSize _ hsqrt
  have hcnt : 0 < slideCount N windowSize (windowSize - overlap) 0 := by
    rw [slideCount_zero _ _ _ hN]
    exact Nat.succ_pos _
  have hmemflat : (ops.log10 (1/1000000) * 20)
      ∈ (computeSpectrogram ops (List.replicate N (0:α)) sampleRate
          windowSize overlap).magnitudes.flatten := by
    refine List.mem_flatten.2
      ⟨List.replicate (nextPow2 windowSize / 2) (ops.log10 (1/1000000) * 20), ?_, ?_⟩
    · rw [hmag]
      exact List.mem_map.2 ⟨0, List.mem_range.2 hcnt, logRow_zero ops N _ windowSize _ hsqrt⟩
    · have hhalf := nextPow2_half_pos h2
      exact List.mem_replicate.2 ⟨by omega, rfl⟩
  have hflatne : (computeSpectrogram ops (List.replicate N (0:α)) sampleRate
      windowSize overlap).magnitudes.flatten ≠ [] := List.ne_nil_of_mem hmemflat
  have hallflat : ∀ x ∈ (computeSpectrogram ops (List.replicate N (0:α)) sampleRate
      windowSize overlap).magnitudes.flatten, x = ops.log10 (1/1000000) * 20 := by
    intro x hx
    obtain ⟨row, hrow, hxrow⟩ := List.mem_flatten.1 hx
    rw [hrows row hrow] at hxrow
    exact List.eq_of_mem_replicate hxrow
  refine ⟨fun row hrow x hx => by
      rw [hrows row hrow] at hx
      exact List.eq_of_mem_replicate hx, ?_, ?_⟩
  · have hM : (computeSpectrogram ops (List.replicate N (0:α)) sampleRate
        windowSize overlap).maxMag
        = foldMax (computeSpectrogram ops (List.replicate N (0:α)) sampleRate
            windowSize overlap).magnitudes.flatten ⊥ := by
      rw [computeSpectrogram_maxMag, computeSpectrogram_magnitudes]
    obtain ⟨m, hm1, hm2, _⟩ := foldMax_spec _ hflatne
    rw [hM, hm1, hallflat m hm2]
  · have hM : (computeSpectrogram ops (List.replicate N (0:α)) sampleRate
        windowSize overlap).minMag
        = foldMin (computeSpectrogram ops (List.replicate N (0:α)) sampleRate
            windowSize overlap).magnitudes.flatten ⊤ := by
      rw [computeSpectrogram_minMag, computeSpectrogram_magnitudes]
    obtain ⟨m, hm1, hm2, _⟩ := foldMin_spec _ hflatne
    rw [hM, hm1, hallflat m hm2]

/-- C7 witness: four zero samples with `windowSize = 2`, `overlap = 1`
under a concrete ℚ interpretation with `sqrt 0 = 0`. -/
theorem spectrogram_zero_signal_witness :
    (computeSpectrogram ratOps (List.replicate 4 (0:ℚ)) 1 2 1).maxMag
      = ((ratOps.log10 (1/1000000) * 20 : ℚ) : WithBot ℚ) :=
  (spectrogram_zero_signal ratOps 4 2 1 1 rfl (by decide) (by decide) (by decide)).2.1

/-- C10: with an empty matrix `totalTrials = 0`; from the initial
`currentTrial = 0`, "next" produces `min(totalTrials - 1, 1) = -1`,
leaving the range `[0, totalTrials - 1]`, while "prev" stays at 0. -/
theorem empty_data_navigation (ppt : ℕ) :
    totalTrials 0 ppt = 0 ∧
    handleNext (totalTrials 0 ppt) 0 = -1 ∧
    handlePrev 0 = 0 ∧
    handleNext (totalTrials 0 ppt) 0 < 0 := by
  have h : totalTrials 0 ppt = 0 := by simp [totalTrials]
  rw [h]
  exact ⟨rfl, by decide, by decide, by decide⟩

end NeuroView
